import Mathlib

/-!
Verification development for the sf-mcp repository core:
the command-execution adapter (`executeSfCommand` in `sf-command.ts`) and the
manifest management logic (`getManifestSummary`, `filterManifest`,
`filterLargeManifest` in the manifest tools module), together with a
spec-level model of the manifest parser/serializer.

Conventions of the shallow embedding:
* JavaScript strings are Lean `String` (a wrapper around `List Char`).
* `JSON.parse` is modelled by `jsonParse`, an executable RFC-style JSON
  parser returning `Option Json` (`none` models a thrown `SyntaxError`).
* The node `exec` callback arguments `(error, stdout, stderr)` are modelled
  by the record `ExecResult`; `error = some msg` models a launch failure or
  non-zero exit whose `Error` object carries message `msg`.
* Promise resolution/rejection is modelled by the tagged union
  `CommandOutcome` (`Success payload` / `Failure message`).
-/

deriving instance DecidableEq for Except

/-- Characters that are special to the lexical scanners; bound to names once
so the remaining code can refer to them uniformly. -/
def dquoteChar : Char := Char.ofNat 34

/-- Backslash character. -/
def bslashChar : Char := Char.ofNat 92

/-- Left curly brace character. -/
def lbraceChar : Char := Char.ofNat 123

/-- Right curly brace character. -/
def rbraceChar : Char := Char.ofNat 125

/-- JSON values as produced by `JSON.parse`.  Numeric literals are kept as
their source text: no claim depends on numeric evaluation. -/
inductive Json where
  | null
  | bool (b : Bool)
  | num (lit : String)
  | str (s : String)
  | arr (items : List Json)
  | obj (fields : List (String × Json))

/-- Whitespace accepted between JSON tokens (RFC 8259: space, tab, LF, CR). -/
def jsonWs (c : Char) : Bool :=
  c = ' ' ∨ c = '\t' ∨ c = '\n' ∨ c = '\r'

/-- Skip JSON whitespace. -/
def skipJsonWs : List Char → List Char
  | c :: cs => if jsonWs c then skipJsonWs cs else c :: cs
  | [] => []

/-- Decode one escape character following a backslash in a JSON string
(\u escapes are handled separately by the caller). -/
def jsonEsc (c : Char) : Option Char :=
  if c = dquoteChar then some dquoteChar
  else if c = bslashChar then some bslashChar
  else if c = '/' then some '/'
  else if c = 'b' then some (Char.ofNat 8)
  else if c = 'f' then some (Char.ofNat 12)
  else if c = 'n' then some '\n'
  else if c = 'r' then some '\r'
  else if c = 't' then some '\t'
  else none

/-- Value of a hexadecimal digit. -/
def hexVal (c : Char) : Option Nat :=
  if '0' ≤ c ∧ c ≤ '9' then some (c.toNat - '0'.toNat)
  else if 'a' ≤ c ∧ c ≤ 'f' then some (c.toNat - 'a'.toNat + 10)
  else if 'A' ≤ c ∧ c ≤ 'F' then some (c.toNat - 'A'.toNat + 10)
  else none

/-- Read the body of a JSON string literal after the opening quote; returns
the decoded characters and the input following the closing quote. -/
def jsonStrBody : List Char → Option (List Char × List Char)
  | [] => none
  | c :: cs =>
    if c = dquoteChar then some ([], cs)
    else if c = bslashChar then
      match cs with
      | [] => none
      | e :: cs' =>
        if e = 'u' then
          match cs' with
          | h1 :: h2 :: h3 :: h4 :: cs'' =>
            match hexVal h1, hexVal h2, hexVal h3, hexVal h4 with
            | some v1, some v2, some v3, some v4 =>
              (jsonStrBody cs'').map fun r =>
                (Char.ofNat (((v1 * 16 + v2) * 16 + v3) * 16 + v4) :: r.1, r.2)
            | _, _, _, _ => none
          | _ => none
        else
          match jsonEsc e with
          | some d => (jsonStrBody cs').map fun r => (d :: r.1, r.2)
          | none => none
    else (jsonStrBody cs).map fun r => (c :: r.1, r.2)

/-- Characters that may occur in a JSON numeric literal. -/
def jsonNumChar (c : Char) : Bool :=
  c.isDigit ∨ c = '-' ∨ c = '+' ∨ c = '.' ∨ c = 'e' ∨ c = 'E'

/-- Drop an expected literal suffix (e.g. "rue" after 't'). -/
def dropLit : List Char → List Char → Option (List Char)
  | [], cs => some cs
  | l :: ls, c :: cs => if c = l then dropLit ls cs else none
  | _ :: _, [] => none

mutual

/-- Parse one JSON value; the `Nat` argument is recursion fuel. -/
def jsonVal : Nat → List Char → Option (Json × List Char)
  | 0, _ => none
  | fuel + 1, cs =>
    match skipJsonWs cs with
    | [] => none
    | c :: rest =>
      if c = dquoteChar then
        (jsonStrBody rest).map fun r => (.str (String.mk r.1), r.2)
      else if c = lbraceChar then jsonObjRest fuel rest
      else if c = '[' then jsonArrRest fuel rest
      else if c = 't' then (dropLit ['r', 'u', 'e'] rest).map fun r => (.bool true, r)
      else if c = 'f' then (dropLit ['a', 'l', 's', 'e'] rest).map fun r => (.bool false, r)
      else if c = 'n' then (dropLit ['u', 'l', 'l'] rest).map fun r => (.null, r)
      else if c.isDigit ∨ c = '-' then
        let lit := c :: (rest.takeWhile jsonNumChar)
        some (.num (String.mk lit), rest.dropWhile jsonNumChar)
      else none

/-- Parse the remainder of a JSON array after `[`. -/
def jsonArrRest : Nat → List Char → Option (Json × List Char)
  | 0, _ => none
  | fuel + 1, cs =>
    match skipJsonWs cs with
    | c :: rest =>
      if c = ']' then some (.arr [], rest)
      else
        match jsonItems fuel cs with
        | some (items, rest') => some (.arr items, rest')
        | none => none
    | [] => none

/-- Parse one or more comma-separated array items up to `]`. -/
def jsonItems : Nat → List Char → Option (List Json × List Char)
  | 0, _ => none
  | fuel + 1, cs =>
    match jsonVal fuel cs with
    | none => none
    | some (v, rest) =>
      match skipJsonWs rest with
      | c :: rest' =>
        if c = ',' then
          match jsonItems fuel rest' with
          | some (vs, rest'') => some (v :: vs, rest'')
          | none => none
        else if c = ']' then some ([v], rest')
        else none
      | [] => none

/-- Parse the remainder of a JSON object after the opening brace. -/
def jsonObjRest : Nat → List Char → Option (Json × List Char)
  | 0, _ => none
  | fuel + 1, cs =>
    match skipJsonWs cs with
    | c :: rest =>
      if c = rbraceChar then some (.obj [], rest)
      else
        match jsonFields fuel cs with
        | some (fs, rest') => some (.obj fs, rest')
        | none => none
    | [] => none

/-- Parse one or more comma-separated `"key": value` pairs up to the
closing brace. -/
def jsonFields : Nat → List Char → Option (List (String × Json) × List Char)
  | 0, _ => none
  | fuel + 1, cs =>
    match skipJsonWs cs with
    | c :: rest =>
      if c = dquoteChar then
        match jsonStrBody rest with
        | none => none
        | some (key, rest') =>
          match skipJsonWs rest' with
          | k :: rest'' =>
            if k = ':' then
              match jsonVal fuel rest'' with
              | none => none
              | some (v, rest3) =>
                match skipJsonWs rest3 with
                | d :: rest4 =>
                  if d = ',' then
                    match jsonFields fuel rest4 with
                    | some (fs, rest5) => some ((String.mk key, v) :: fs, rest5)
                    | none => none
                  else if d = rbraceChar then some ([(String.mk key, v)], rest4)
                  else none
                | [] => none
            else none
          | [] => none
      else none
    | [] => none

end

/-- Model of `JSON.parse`: `none` models a thrown `SyntaxError`.  Trailing
non-whitespace input is rejected, as in JavaScript. -/
def jsonParse (s : String) : Option Json :=
  match jsonVal (s.toList.length + 1) s.toList with
  | some (v, rest) => if skipJsonWs rest = [] then some v else none
  | none => none

/-- `String(v)` coercion for a parsed JSON value (used by `new Error(v)`:
arrays stringify as their comma-joined items, objects as
"[object Object]"). -/
def jsString : Json → String
  | .null => "null"
  | .bool true => "true"
  | .bool false => "false"
  | .num lit => lit
  | .str s => s
  | .arr items => String.intercalate "," (items.map fun v => jsStringShallow v)
  | .obj _ => "[object Object]"
where
  /-- One-level approximation used inside array joins. -/
  jsStringShallow : Json → String
    | .null => ""
    | .bool true => "true"
    | .bool false => "false"
    | .num lit => lit
    | .str s => s
    | .arr _ => ""
    | .obj _ => "[object Object]"

/-- JavaScript truthiness of a parsed JSON value.  A numeric literal whose
mantissa digits are all zero denotes the number 0 and is falsy. -/
def jsTruthy : Json → Bool
  | .null => false
  | .bool b => b
  | .num lit =>
    !((lit.toList.takeWhile fun c => c ≠ 'e' ∧ c ≠ 'E').all fun c =>
        c = '0' ∨ c = '-' ∨ c = '+' ∨ c = '.')
  | .str s => s ≠ ""
  | .arr _ => true
  | .obj _ => true

/-- Property lookup on a JS object built by `JSON.parse`: with duplicate
keys the last binding wins. -/
def jsGetField (fields : List (String × Json)) (key : String) : Option Json :=
  fields.reverse.lookup key

/-- Mirror of the shared `try` block
`const sfError = JSON.parse(stderr); reject(new Error(sfError.message || stderr))`:
`none` means the block threw (either `JSON.parse` threw, or `stderr` parsed
to `null` and the property access `null.message` threw a `TypeError`), so
control reaches the enclosing `catch`.  Otherwise the result is the message
the block rejects with: a truthy `message` value stringified, else the raw
`stderr` fallback. -/
def tryStderrMessage (stderr : String) : Option String :=
  match jsonParse stderr with
  | none => none
  | some .null => none
  | some (.obj fields) =>
    match jsGetField fields "message" with
    | some m => some (if jsTruthy m then jsString m else stderr)
    | none => some stderr
  | some _ => some stderr

/-- JavaScript `String.prototype.trim`: strip whitespace from both ends. -/
def jsTrim (s : String) : String :=
  String.mk (((s.toList.dropWhile Char.isWhitespace).reverse.dropWhile
    Char.isWhitespace).reverse)

/-- Arguments of the node `exec` callback `(error, stdout, stderr)`.
`error = some msg` models a launch failure or non-zero exit whose `Error`
object carries message `msg` (for non-zero exits node builds this message
from the command line and the stderr text). -/
structure ExecResult where
  error : Option String
  stdout : String
  stderr : String

/-- Outcome of one adapter invocation: the promise resolves with a payload
or rejects with an error message. -/
inductive CommandOutcome where
  | Success (payload : Json)
  | Failure (message : String)

/-- Shallow embedding of `executeSfCommand` (src `sf-command.ts`): the
callback body of the promise, classifying `(error, stdout, stderr)`. -/
def executeSfCommand (r : ExecResult) : CommandOutcome :=
  match r.error with
  | some errMsg =>
    match tryStderrMessage r.stderr with
    | some m => .Failure m
    | none => .Failure errMsg
  | none =>
    if r.stderr ≠ "" ∧ r.stdout = "" then
      match tryStderrMessage r.stderr with
      | some m => .Failure m
      | none => .Failure r.stderr
    else
      match jsonParse r.stdout with
      | some result => .Success result
      | none => .Success (.obj [("message", .str (jsTrim r.stdout))])

/-!
## Manifest tools (manifest tools module)

`parseStringPromise` (xml2js) binds the manifest XML to nested objects with
one array per repeated element.  Its output is modelled by `ParsedXml`:
`XTypeEntry.name` is the xml2js array for the `name` child, and
`XTypeEntry.members = none` models the absence of the `members` key on the
bound object (no member element at all).  The numeric limits are `Int`,
matching JavaScript numbers on the integral inputs the tools receive.
-/

/-- One element of `parsedXml.Package.types` as bound by xml2js. -/
structure XTypeEntry where
  name : List String
  members : Option (List String)
deriving Repr, DecidableEq

/-- The bound `parsedXml.Package` object. -/
structure XPackage where
  types : Option (List XTypeEntry)
  version : Option (List String)
deriving Repr, DecidableEq

/-- The full xml2js binding result; `Package = none` models a document whose
root element is not `Package`. -/
structure ParsedXml where
  Package : Option XPackage
deriving Repr, DecidableEq

/-- JavaScript `array.slice(0, e)`: a negative end index counts from the end
of the array and clamps at zero. -/
def jsSliceTo (l : List α) (e : Int) : List α :=
  if e < 0 then l.take ((l.length : Int) + e).toNat else l.take e.toNat

/-- The per-entry limiting step shared by `filterManifest` and
`filterLargeManifest`:
`if (type.members && type.members.length > maxItemsPerType) {...members: type.members.slice(0, maxItemsPerType)}`.
Note that an empty members array is truthy in JavaScript, hence the plain
`match` on presence followed by the length test. -/
def limitEntry (maxItemsPerType : Int) (t : XTypeEntry) : XTypeEntry :=
  match t.members with
  | some ms =>
    if (ms.length : Int) > maxItemsPerType then
      { t with members := some (jsSliceTo ms maxItemsPerType) }
    else t
  | none => t

/-- The name test of `filterManifest`:
`metadataTypes.includes(type.name?.[0])`; an absent name yields `undefined`,
which is never included. -/
def entryNameIncluded (metadataTypes : List String) (t : XTypeEntry) : Bool :=
  match t.name.head? with
  | some n => metadataTypes.contains n
  | none => false

/-- The name test lifted to the bound name value (`name?.[0]`): used to
state which entries the filter retains. -/
def nameIncludedB (metadataTypes : List String) : Option String → Bool
  | some n => metadataTypes.contains n
  | none => false

/-- The `filteredTypes` computation of `filterManifest`: filter by name,
then limit members per type. -/
def filterTypes (metadataTypes : List String) (maxItemsPerType : Int)
    (types : List XTypeEntry) : List XTypeEntry :=
  (types.filter (entryNameIncluded metadataTypes)).map (limitEntry maxItemsPerType)

/-- Shallow embedding of the `filterManifest` tool body after the xml2js
parse, up to the construction of `filteredTypes` (the subsequent XML build
and file write reuse `filteredTypes` unchanged).  The caller-side default
for an omitted `maxItemsPerType` is 500. -/
def filterManifest (px : ParsedXml) (metadataTypes : List String)
    (maxItemsPerType : Int) : Except String (List XTypeEntry) :=
  match px.Package with
  | none => .error "Invalid package.xml format"
  | some p =>
    match p.types with
    | none => .error "Invalid package.xml format"
    | some ts => .ok (filterTypes metadataTypes maxItemsPerType ts)

/-- One summary row built by `getManifestSummary`. -/
structure SummaryItem where
  name : Option String
  memberCount : Nat
  sampleMembers : List String
deriving Repr, DecidableEq

/-- The per-type summary row:
`{name: type.name?.[0], memberCount: type.members ? type.members.length : 0, sampleMembers: type.members ? type.members.slice(0, 3) : []}`. -/
def summaryItem (t : XTypeEntry) : SummaryItem :=
  { name := t.name.head?
    memberCount := match t.members with | some ms => ms.length | none => 0
    sampleMembers := match t.members with | some ms => ms.take 3 | none => [] }

/-- Shallow embedding of the `getManifestSummary` tool body after the
xml2js parse: the summary rows together with the reduced `totalItems`. -/
def getManifestSummary (px : ParsedXml) : Except String (List SummaryItem × Nat) :=
  match px.Package with
  | none => .error "Invalid package.xml format"
  | some p =>
    match p.types with
    | none => .error "Invalid package.xml format"
    | some ts =>
      let summary := ts.map summaryItem
      .ok (summary, (summary.map (fun s => s.memberCount)).foldl (· + ·) 0)

/-- Result of `filterLargeManifest`: the rewritten types array and the
single document-level `modified` flag that decides whether the file is
rewritten. -/
structure LimitResult where
  types : List XTypeEntry
  modified : Bool
deriving Repr, DecidableEq

/-- Shallow embedding of the helper `filterLargeManifest`: when the guard
`parsedXml.Package && parsedXml.Package.types` fails nothing happens
(`none`); otherwise every type entry is limited (no name filter) and the
mutated `modified` flag records whether any entry exceeded the limit. -/
def filterLargeManifest (px : ParsedXml) (maxItemsPerType : Int) :
    Option LimitResult :=
  match px.Package with
  | none => none
  | some p =>
    match p.types with
    | none => none
    | some ts =>
      some { types := ts.map (limitEntry maxItemsPerType)
             modified := ts.any fun t =>
               match t.members with
               | some ms => (ms.length : Int) > maxItemsPerType
               | none => false }

/-!
## Manifest Parser/Serializer (spec-level model)

The repository delegates XML parsing and building to the external xml2js
library, so the bidirectional text transform itself is not in the sources.
The definitions below are modelled from the spec: an explicit typed
document model, a serializer emitting the package.xml format (root
`Package` element with the fixed namespace declaration, `types` elements
each holding `members` and a `name`, and one `version` element), and a
parser that fails with `ParseError` when the root element or the required
type collection is absent or malformed.
-/

/-- Modelled from the spec: one `TypeEntry` of the typed document model
(the spec's Manifest Document Model, absent from the sources which use the
generic xml2js binding instead). -/
structure ManifestType where
  name : String
  members : List String
deriving Repr, DecidableEq

/-- Modelled from the spec: the typed `ManifestDocument`. -/
structure ManifestDocument where
  version : String
  types : List ManifestType
deriving Repr, DecidableEq

/-- Text usable as XML element content in this model: it contains no `<`
and does not begin with whitespace (the lexer folds inter-element
whitespace away). -/
def okChars (cs : List Char) : Bool :=
  match cs with
  | [] => true
  | c :: rest => ¬c.isWhitespace ∧ c ≠ '<' ∧ (c :: rest).all (fun x => x ≠ '<')

/-- Well-formedness of an in-memory document, the hypothesis of the
round-trip law: a non-empty version, at least one type entry (the spec
makes the type collection required), and element text fit for XML content. -/
def wellFormedDoc (d : ManifestDocument) : Bool :=
  d.version ≠ "" ∧ okChars d.version.toList ∧ d.types ≠ [] ∧
    d.types.all fun t =>
      okChars t.name.toList ∧ t.members.all fun m => okChars m.toList

/-- The fixed XML declaration line. -/
def xmlDeclChars : List Char := "<?xml version=\"1.0\" encoding=\"UTF-8\"?>".toList

/-- The root open tag with the namespace declaration fixed by the platform
protocol. -/
def packageOpenChars : List Char :=
  "<Package xmlns=\"http://soap.sforce.com/2006/04/metadata\">".toList

/-- An opening tag `<n>`. -/
def openTagChars (n : String) : List Char := '<' :: n.toList ++ ['>']

/-- A closing tag `</n>`. -/
def closeTagChars (n : String) : List Char := '<' :: '/' :: n.toList ++ ['>']

/-- Serialized form of one member element. -/
def memberChars (m : String) : List Char :=
  openTagChars "members" ++ m.toList ++ closeTagChars "members"

/-- Serialized form of one type element: the member elements, then the
name element. -/
def typeEntryChars (t : ManifestType) : List Char :=
  openTagChars "types" ++ (t.members.flatMap memberChars) ++
    openTagChars "name" ++ t.name.toList ++ closeTagChars "name" ++
    closeTagChars "types"

/-- Modelled from the spec: `serialize(doc) → text`. -/
def serializeChars (d : ManifestDocument) : List Char :=
  xmlDeclChars ++ packageOpenChars ++ (d.types.flatMap typeEntryChars) ++
    openTagChars "version" ++ d.version.toList ++ closeTagChars "version" ++
    closeTagChars "Package"

/-- Modelled from the spec: the serializer on `String`. -/
def serializeManifest (d : ManifestDocument) : String :=
  String.mk (serializeChars d)

/-- Tokens of the XML subset lexer. -/
inductive XmlToken where
  | elemOpen (name : String)
  | elemClose (name : String)
  | textTok (s : String)
  | badTok
deriving Repr, DecidableEq

/-- Lexer state: between tokens, inside element text, or inside a tag
(both accumulators are kept reversed). -/
inductive LexState where
  | ws
  | text (acc : List Char)
  | tag (acc : List Char)

/-- The element name of a tag body: the characters before the first
whitespace (attributes such as the namespace declaration follow it). -/
def tagNameOf (cs : List Char) : List Char :=
  cs.takeWhile fun c => ¬c.isWhitespace

/-- Tokens emitted for one complete tag body.  A `?...` body (the XML
declaration) lexes to nothing; a leading `/` marks a closing tag; an empty
body is malformed. -/
def tagToken (cs : List Char) : List XmlToken :=
  match cs with
  | [] => [.badTok]
  | c :: rest =>
    if c = '?' then []
    else if c = '/' then [.elemClose (String.mk (tagNameOf rest))]
    else [.elemOpen (String.mk (tagNameOf (c :: rest)))]

/-- The XML subset lexer: splits input into tags and text, skipping
whitespace between tokens; an unterminated tag yields `badTok`. -/
def lexAux : List Char → LexState → List XmlToken
  | [], .ws => []
  | [], .text acc => [.textTok (String.mk acc.reverse)]
  | [], .tag _ => [.badTok]
  | c :: cs, .ws =>
    if c = '<' then lexAux cs (.tag [])
    else if c.isWhitespace then lexAux cs .ws
    else lexAux cs (.text [c])
  | c :: cs, .text acc =>
    if c = '<' then .textTok (String.mk acc.reverse) :: lexAux cs (.tag [])
    else lexAux cs (.text (c :: acc))
  | c :: cs, .tag acc =>
    if c = '>' then tagToken acc.reverse ++ lexAux cs .ws
    else lexAux cs (.tag (c :: acc))

/-- Modelled from the spec: the `ParseError` failure of `parse`. -/
inductive ParseError where
  | rootMissing
  | typesMissing
  | malformed
deriving Repr, DecidableEq

/-- Parse the run of `members` elements at the head of a type body; stops
at the first token that does not open a `members` element. -/
def parseMembers : List XmlToken → List String →
    Option (List String × List XmlToken)
  | .elemOpen m :: rest, acc =>
    if m = "members" then
      match rest with
      | .textTok s :: .elemClose c :: rest' =>
        if c = "members" then parseMembers rest' (s :: acc) else none
      | .elemClose c :: rest' =>
        if c = "members" then parseMembers rest' ("" :: acc) else none
      | _ => none
    else some (acc.reverse, .elemOpen m :: rest)
  | toks, acc => some (acc.reverse, toks)

/-- Parse the body of one `types` element (after its open tag): the member
run, then the `name` element, then the closing tag. -/
def parseTypeBody (toks : List XmlToken) :
    Option (ManifestType × List XmlToken) :=
  match parseMembers toks [] with
  | none => none
  | some (ms, rest) =>
    match rest with
    | .elemOpen n :: .textTok s :: .elemClose c :: .elemClose c2 :: rest' =>
      if n = "name" ∧ c = "name" ∧ c2 = "types" then some (⟨s, ms⟩, rest')
      else none
    | .elemOpen n :: .elemClose c :: .elemClose c2 :: rest' =>
      if n = "name" ∧ c = "name" ∧ c2 = "types" then some (⟨"", ms⟩, rest')
      else none
    | _ => none

/-- Parse the tail of the document after the `version` open tag: the
version text, the closing version tag and the closing root tag.  An empty
type collection is the spec's `typesMissing` failure; an empty version
violates the version invariant and is malformed. -/
def parseVersionTail : List XmlToken → List ManifestType →
    Except ParseError ManifestDocument
  | [.textTok v, .elemClose c, .elemClose c2], acc =>
    if c = "version" ∧ c2 = "Package" then
      if acc = [] then .error .typesMissing
      else if v = "" then .error .malformed
      else .ok ⟨v, acc.reverse⟩
    else .error .malformed
  | _, _ => .error .malformed

/-- Parse the children of the root element: a run of `types` elements
followed by the single `version` element and the closing root tag. -/
def parseEntries : Nat → List XmlToken → List ManifestType →
    Except ParseError ManifestDocument
  | 0, _, _ => .error .malformed
  | fuel + 1, toks, acc =>
    match toks with
    | .elemOpen t :: rest =>
      if t = "types" then
        match parseTypeBody rest with
        | some (ty, rest') => parseEntries fuel rest' (ty :: acc)
        | none => .error .malformed
      else if t = "version" then parseVersionTail rest acc
      else .error .malformed
    | _ => .error .malformed

/-- Modelled from the spec: `parse(text) → ManifestDocument`, failing with
`ParseError` when the root element or the required type collection is
absent or malformed. -/
def parseManifest (x : String) : Except ParseError ManifestDocument :=
  match lexAux x.toList .ws with
  | .elemOpen p :: rest =>
    if p = "Package" then parseEntries (rest.length + 1) rest []
    else .error .rootMissing
  | _ => .error .rootMissing

/-!
## Token-level description of serializer output, and concrete inputs

`docTokens d` is the token sequence the lexer produces on `serializeChars d`
for a well-formed `d`; the round-trip proof goes through it.
-/

/-- Tokens of one serialized member element. -/
def memberTokens (m : String) : List XmlToken :=
  if m = "" then [.elemOpen "members", .elemClose "members"]
  else [.elemOpen "members", .textTok m, .elemClose "members"]

/-- Tokens of one serialized name element. -/
def nameTokens (n : String) : List XmlToken :=
  if n = "" then [.elemOpen "name", .elemClose "name"]
  else [.elemOpen "name", .textTok n, .elemClose "name"]

/-- Tokens of one serialized type element. -/
def typeTokens (t : ManifestType) : List XmlToken :=
  .elemOpen "types" :: ((t.members.flatMap memberTokens) ++ nameTokens t.name ++
    [.elemClose "types"])

/-- Tokens of the serialized version element and the closing root tag. -/
def versionTokens (v : String) : List XmlToken :=
  [.elemOpen "version", .textTok v, .elemClose "version", .elemClose "Package"]

/-- The full token sequence of a serialized document. -/
def docTokens (d : ManifestDocument) : List XmlToken :=
  .elemOpen "Package" :: ((d.types.flatMap typeTokens) ++ versionTokens d.version)

/-- Element text carried by a token satisfies `okChars` (lexer output
invariant). -/
def tokTextOk : XmlToken → Bool
  | .textTok s => okChars s.toList
  | _ => true

/-- Invariant on lexer states used to prove the output invariant: a text
accumulator is non-empty and holds (reversed) well-formed element text. -/
def stateOk : LexState → Prop
  | .ws => True
  | .tag _ => True
  | .text acc => acc ≠ [] ∧ okChars acc.reverse = true

/-- Per-entry well-formedness of a parsed type entry. -/
def entryOk (t : ManifestType) : Bool :=
  okChars t.name.toList ∧ t.members.all fun m => okChars m.toList

/-!
## Concrete inputs used by witnesses and counterexamples
-/

/-- The S4 error-channel text, a structured error document:
`{"message":"INVALID_SESSION_ID"}`. -/
def s4stderrText : String := "\x7b\"message\":\"INVALID_SESSION_ID\"\x7d"

/-- The S1 document: one ApexClass entry with five members. -/
def pxS1 : ParsedXml :=
  ⟨some ⟨some [⟨["ApexClass"], some ["A", "B", "C", "D", "E"]⟩], some ["59.0"]⟩⟩

/-- A two-entry document: a five-member ApexClass entry and a one-member
CustomObject entry. -/
def pxTwoTypes : ParsedXml :=
  ⟨some ⟨some [⟨["ApexClass"], some ["A", "B", "C", "D", "E"]⟩,
               ⟨["CustomObject"], some ["X"]⟩], some ["59.0"]⟩⟩

/-- A single-entry document whose ApexClass entry has only two members. -/
def pxTwoMembers : ParsedXml :=
  ⟨some ⟨some [⟨["ApexClass"], some ["ClsA", "ClsB"]⟩], some ["59.0"]⟩⟩

/-- A five-type document (for the empty-filter scenario S2). -/
def pxFiveTypes : ParsedXml :=
  ⟨some ⟨some [⟨["ApexClass"], some ["A"]⟩, ⟨["ApexTrigger"], some ["T"]⟩,
               ⟨["CustomObject"], some ["O"]⟩, ⟨["Layout"], some ["L"]⟩,
               ⟨["Flow"], some ["F"]⟩], some ["59.0"]⟩⟩

/-- A concrete well-formed in-memory document for the round-trip witness. -/
def docW : ManifestDocument :=
  ⟨"59.0", [⟨"ApexClass", ["ClsA", "ClsB", ""]⟩, ⟨"CustomObject", []⟩]⟩

/-- A manifest text whose root element is not `Package`. -/
def badRootXml : String := "<Foo><version>59.0</version></Foo>"

/-- A manifest text with a `Package` root but no type collection. -/
def noTypesXml : String := "<Package><version>59.0</version></Package>"

/-!
## Round-trip lemmas: lexer
-/

theorem lexAux_lt (cs : List Char) : lexAux ('<' :: cs) .ws = lexAux cs (.tag []) := by
  simp [lexAux]

theorem lexAux_tag_run (body cs acc : List Char) (h : ∀ c ∈ body, c ≠ '>') :
    lexAux (body ++ '>' :: cs) (.tag acc) =
      tagToken (acc.reverse ++ body) ++ lexAux cs .ws := by
  induction body generalizing acc with
  | nil => simp [lexAux]
  | cons b bs ih =>
    have hb : b ≠ '>' := h b (List.mem_cons_self _ _)
    simp only [List.cons_append, lexAux, if_neg hb, List.append_eq]
    rw [ih (b :: acc) (fun c hc => h c (List.mem_cons_of_mem _ hc))]
    simp

theorem lexAux_rawTag (body cs : List Char) (h : ∀ c ∈ body, c ≠ '>') :
    lexAux (('<' :: body ++ ['>']) ++ cs) .ws = tagToken body ++ lexAux cs .ws := by
  have heq : ('<' :: body ++ ['>']) ++ cs = '<' :: (body ++ '>' :: cs) := by simp
  rw [heq, lexAux_lt, lexAux_tag_run body cs [] h]
  simp

theorem lexAux_openTag (n : String) (cs : List Char) (h : ∀ c ∈ n.toList, c ≠ '>') :
    lexAux (openTagChars n ++ cs) .ws = tagToken n.toList ++ lexAux cs .ws := by
  rw [openTagChars, lexAux_rawTag n.toList cs h]

theorem lexAux_closeTag (n : String) (cs : List Char) (h : ∀ c ∈ n.toList, c ≠ '>') :
    lexAux (closeTagChars n ++ cs) .ws = tagToken ('/' :: n.toList) ++ lexAux cs .ws := by
  have heq : closeTagChars n = '<' :: ('/' :: n.toList) ++ ['>'] := by simp [closeTagChars]
  rw [heq, lexAux_rawTag ('/' :: n.toList) cs]
  intro c hc
  rcases List.mem_cons.mp hc with h1 | h2
  · subst h1; decide
  · exact h c h2

theorem lexAux_text_run (txt cs acc : List Char) (h : ∀ c ∈ txt, c ≠ '<') :
    lexAux (txt ++ '<' :: cs) (.text acc) =
      .textTok (String.mk (acc.reverse ++ txt)) :: lexAux cs (.tag []) := by
  induction txt generalizing acc with
  | nil => simp [lexAux]
  | cons t ts ih =>
    have ht : t ≠ '<' := h t (List.mem_cons_self _ _)
    simp only [List.cons_append, lexAux, if_neg ht, List.append_eq]
    rw [ih (t :: acc) (fun c hc => h c (List.mem_cons_of_mem _ hc))]
    simp

theorem lexAux_ws_text (txt cs : List Char) (hok : okChars txt = true) (hne : txt ≠ []) :
    lexAux (txt ++ '<' :: cs) .ws = .textTok (String.mk txt) :: lexAux cs (.tag []) := by
  cases txt with
  | nil => exact absurd rfl hne
  | cons t ts =>
    simp only [okChars, Bool.and_eq_true, decide_eq_true_eq, List.all_eq_true] at hok
    obtain ⟨hws, hlt, hall⟩ := hok
    simp only [List.cons_append, lexAux, if_neg hlt, List.append_eq, hws, if_false,
      Bool.false_eq_true]
    rw [lexAux_text_run ts cs [t] (fun c hc => by
      have hx := hall c (List.mem_cons_of_mem _ hc)
      simpa using hx)]
    simp

/-!
## Round-trip lemmas: lexing serializer output
-/

theorem mk_toList (s : String) : String.mk s.toList = s := rfl

theorem lex_member (m : String) (cs : List Char) (h : okChars m.toList = true) :
    lexAux (memberChars m ++ cs) .ws = memberTokens m ++ lexAux cs .ws := by
  by_cases hm : m = ""
  · subst hm
    have heq : memberChars "" ++ cs = openTagChars "members" ++ (closeTagChars "members" ++ cs) := by
      simp [memberChars]
    rw [heq, lexAux_openTag "members" _ (by decide), lexAux_closeTag "members" _ (by decide)]
    simp [memberTokens, tagToken, tagNameOf]
  · have hne : m.toList ≠ [] := fun hx => hm (by
      have := congrArg String.mk hx
      simpa [mk_toList] using this)
    have heq : memberChars m ++ cs =
        openTagChars "members" ++ (m.toList ++ '<' :: (('/' :: "members".toList ++ ['>']) ++ cs)) := by
      simp [memberChars, closeTagChars]
    rw [heq, lexAux_openTag "members" _ (by decide),
      lexAux_ws_text m.toList _ h hne]
    have heq2 : (('/' :: "members".toList ++ ['>']) ++ cs) = ('/' :: "members".toList) ++ '>' :: cs := by
      simp
    rw [heq2, lexAux_tag_run _ _ [] (by decide)]
    simp [memberTokens, tagToken, tagNameOf, hm, mk_toList]

theorem lex_membersList (ms : List String) (cs : List Char)
    (h : ∀ m ∈ ms, okChars m.toList = true) :
    lexAux ((ms.flatMap memberChars) ++ cs) .ws =
      (ms.flatMap memberTokens) ++ lexAux cs .ws := by
  induction ms with
  | nil => simp
  | cons m ms' ih =>
    have heq : ((m :: ms').flatMap memberChars) ++ cs =
        memberChars m ++ ((ms'.flatMap memberChars) ++ cs) := by simp
    rw [heq, lex_member m _ (h m (List.mem_cons_self _ _)),
      ih (fun x hx => h x (List.mem_cons_of_mem _ hx))]
    simp

theorem lex_name (n : String) (cs : List Char) (h : okChars n.toList = true) :
    lexAux ((openTagChars "name" ++ n.toList ++ closeTagChars "name") ++ cs) .ws =
      nameTokens n ++ lexAux cs .ws := by
  by_cases hn : n = ""
  · subst hn
    have heq : (openTagChars "name" ++ "".toList ++ closeTagChars "name") ++ cs =
        openTagChars "name" ++ (closeTagChars "name" ++ cs) := by simp
    rw [heq, lexAux_openTag "name" _ (by decide), lexAux_closeTag "name" _ (by decide)]
    simp [nameTokens, tagToken, tagNameOf]
  · have hne : n.toList ≠ [] := fun hx => hn (by
      have := congrArg String.mk hx
      simpa [mk_toList] using this)
    have heq : (openTagChars "name" ++ n.toList ++ closeTagChars "name") ++ cs =
        openTagChars "name" ++ (n.toList ++ '<' :: (('/' :: "name".toList) ++ '>' :: cs)) := by
      simp [closeTagChars]
    rw [heq, lexAux_openTag "name" _ (by decide), lexAux_ws_text n.toList _ h hne,
      lexAux_tag_run _ _ [] (by decide)]
    simp [nameTokens, tagToken, tagNameOf, hn, mk_toList]

theorem lex_typeEntry (t : ManifestType) (cs : List Char) (h : entryOk t = true) :
    lexAux (typeEntryChars t ++ cs) .ws = typeTokens t ++ lexAux cs .ws := by
  simp only [entryOk, Bool.and_eq_true, decide_eq_true_eq, List.all_eq_true] at h
  obtain ⟨hname, hmem⟩ := h
  have heq : typeEntryChars t ++ cs =
      openTagChars "types" ++ ((t.members.flatMap memberChars) ++
        ((openTagChars "name" ++ t.name.toList ++ closeTagChars "name") ++
          (closeTagChars "types" ++ cs))) := by
    simp [typeEntryChars]
  rw [heq, lexAux_openTag "types" _ (by decide),
    lex_membersList t.members _ hmem,
    lex_name t.name _ hname,
    lexAux_closeTag "types" _ (by decide)]
  simp [typeTokens, tagToken, tagNameOf]

theorem lex_typesList (ts : List ManifestType) (cs : List Char)
    (h : ∀ t ∈ ts, entryOk t = true) :
    lexAux ((ts.flatMap typeEntryChars) ++ cs) .ws =
      (ts.flatMap typeTokens) ++ lexAux cs .ws := by
  induction ts with
  | nil => simp
  | cons t ts' ih =>
    have heq : ((t :: ts').flatMap typeEntryChars) ++ cs =
        typeEntryChars t ++ ((ts'.flatMap typeEntryChars) ++ cs) := by simp
    rw [heq, lex_typeEntry t _ (h t (List.mem_cons_self _ _)),
      ih (fun x hx => h x (List.mem_cons_of_mem _ hx))]
    simp

theorem lex_serialize (d : ManifestDocument) (h : wellFormedDoc d = true) :
    lexAux (serializeChars d) .ws = docTokens d := by
  simp only [wellFormedDoc, Bool.and_eq_true, decide_eq_true_eq, List.all_eq_true] at h
  obtain ⟨hv, hvok, hts, hall⟩ := h
  have hvne : d.version.toList ≠ [] := fun hx => hv (by
    have := congrArg String.mk hx
    simpa [mk_toList] using this)
  have heq : serializeChars d =
      ('<' :: "?xml version=\"1.0\" encoding=\"UTF-8\"?".toList ++ ['>']) ++
        (('<' :: "Package xmlns=\"http://soap.sforce.com/2006/04/metadata\"".toList ++ ['>']) ++
          ((d.types.flatMap typeEntryChars) ++
            (openTagChars "version" ++ (d.version.toList ++ '<' :: (('/' :: "version".toList) ++ '>' ::
              (closeTagChars "Package" ++ [])))))) := by
    simp [serializeChars, xmlDeclChars, packageOpenChars, closeTagChars]
  rw [heq, lexAux_rawTag _ _ (by decide), lexAux_rawTag _ _ (by decide),
    lex_typesList d.types _ (fun t ht => by
      have hx := hall t ht
      simp only [entryOk, Bool.and_eq_true, decide_eq_true_eq, List.all_eq_true]
      exact hx),
    lexAux_openTag "version" _ (by decide),
    lexAux_ws_text d.version.toList _ hvok hvne,
    lexAux_tag_run _ _ [] (by decide),
    lexAux_closeTag "Package" _ (by decide)]
  simp [docTokens, versionTokens, tagToken, tagNameOf, mk_toList, lexAux]

/-!
## Round-trip lemmas: parsing the token sequence
-/

theorem parseMembers_stop (m : String) (hm : m ≠ "members") (rest : List XmlToken)
    (acc : List String) :
    parseMembers (.elemOpen m :: rest) acc = some (acc.reverse, .elemOpen m :: rest) := by
  simp [parseMembers.eq_def, hm]

theorem memberTokens_empty : memberTokens "" = [.elemOpen "members", .elemClose "members"] := rfl

theorem memberTokens_ne (m : String) (hm : m ≠ "") :
    memberTokens m = [.elemOpen "members", .textTok m, .elemClose "members"] := by
  simp [memberTokens, hm]

theorem nameTokens_empty : nameTokens "" = [.elemOpen "name", .elemClose "name"] := rfl

theorem nameTokens_ne (n : String) (hn : n ≠ "") :
    nameTokens n = [.elemOpen "name", .textTok n, .elemClose "name"] := by
  simp [nameTokens, hn]

theorem parseMembers_run (ms : List String) (acc : List String) (rest : List XmlToken) :
    parseMembers ((ms.flatMap memberTokens) ++ .elemOpen "name" :: rest) acc =
      some (acc.reverse ++ ms, .elemOpen "name" :: rest) := by
  induction ms generalizing acc with
  | nil =>
    rw [show (([] : List String).flatMap memberTokens) ++ XmlToken.elemOpen "name" :: rest =
      XmlToken.elemOpen "name" :: rest from by simp]
    rw [parseMembers_stop "name" (by decide)]
    simp
  | cons m ms' ih =>
    by_cases hm : m = ""
    · subst hm
      rw [show (("" :: ms').flatMap memberTokens) ++ XmlToken.elemOpen "name" :: rest =
        XmlToken.elemOpen "members" :: XmlToken.elemClose "members" ::
          (ms'.flatMap memberTokens ++ XmlToken.elemOpen "name" :: rest) from by
        simp [memberTokens_empty]]
      rw [show parseMembers
          (XmlToken.elemOpen "members" :: XmlToken.elemClose "members" ::
            (ms'.flatMap memberTokens ++ XmlToken.elemOpen "name" :: rest)) acc =
          parseMembers (ms'.flatMap memberTokens ++ XmlToken.elemOpen "name" :: rest)
            ("" :: acc) from by
        conv_lhs => rw [parseMembers.eq_def]
        simp]
      rw [ih ("" :: acc)]
      simp
    · rw [show ((m :: ms').flatMap memberTokens) ++ XmlToken.elemOpen "name" :: rest =
        XmlToken.elemOpen "members" :: XmlToken.textTok m :: XmlToken.elemClose "members" ::
          (ms'.flatMap memberTokens ++ XmlToken.elemOpen "name" :: rest) from by
        simp [memberTokens_ne m hm]]
      rw [show parseMembers
          (XmlToken.elemOpen "members" :: XmlToken.textTok m :: XmlToken.elemClose "members" ::
            (ms'.flatMap memberTokens ++ XmlToken.elemOpen "name" :: rest)) acc =
          parseMembers (ms'.flatMap memberTokens ++ XmlToken.elemOpen "name" :: rest)
            (m :: acc) from by
        conv_lhs => rw [parseMembers.eq_def]
        simp]
      rw [ih (m :: acc)]
      simp

theorem parseTypeBody_run (t : ManifestType) (rest : List XmlToken) :
    parseTypeBody ((t.members.flatMap memberTokens) ++ nameTokens t.name ++
      .elemClose "types" :: rest) = some (t, rest) := by
  obtain ⟨tn, tms⟩ := t
  by_cases hn : tn = ""
  · subst hn
    rw [show (tms.flatMap memberTokens) ++ nameTokens "" ++ XmlToken.elemClose "types" :: rest =
      (tms.flatMap memberTokens) ++ XmlToken.elemOpen "name" ::
        (XmlToken.elemClose "name" :: XmlToken.elemClose "types" :: rest) from by
      simp [nameTokens_empty]]
    rw [parseTypeBody, parseMembers_run tms [] _]
    simp
  · rw [show (tms.flatMap memberTokens) ++ nameTokens tn ++ XmlToken.elemClose "types" :: rest =
      (tms.flatMap memberTokens) ++ XmlToken.elemOpen "name" ::
        (XmlToken.textTok tn :: XmlToken.elemClose "name" :: XmlToken.elemClose "types" :: rest) from by
      simp [nameTokens_ne tn hn]]
    rw [parseTypeBody, parseMembers_run tms [] _]
    simp

theorem parseEntries_run (ts : List ManifestType) (fuel : Nat) (acc : List ManifestType)
    (v : String) (hfuel : ts.length < fuel) (hv : v ≠ "")
    (hne : acc = [] → ts ≠ []) :
    parseEntries fuel ((ts.flatMap typeTokens) ++ versionTokens v) acc =
      .ok ⟨v, acc.reverse ++ ts⟩ := by
  induction ts generalizing fuel acc with
  | nil =>
    cases fuel with
    | zero => omega
    | succ f =>
      have hacc : acc ≠ [] := fun hx => (hne hx) rfl
      simp [parseEntries, parseVersionTail, versionTokens, hacc, hv]
  | cons t ts' ih =>
    cases fuel with
    | zero => simp at hfuel
    | succ f =>
      simp only [List.length_cons] at hfuel
      have heq : (((t :: ts').flatMap typeTokens) ++ versionTokens v) =
          XmlToken.elemOpen "types" ::
            ((t.members.flatMap memberTokens) ++ nameTokens t.name ++
              .elemClose "types" :: ((ts'.flatMap typeTokens) ++ versionTokens v)) := by
        simp [typeTokens]
      rw [heq]
      rw [show parseEntries (f + 1)
          (XmlToken.elemOpen "types" ::
            ((t.members.flatMap memberTokens) ++ nameTokens t.name ++
              .elemClose "types" :: ((ts'.flatMap typeTokens) ++ versionTokens v))) acc =
          (match parseTypeBody
            ((t.members.flatMap memberTokens) ++ nameTokens t.name ++
              .elemClose "types" :: ((ts'.flatMap typeTokens) ++ versionTokens v)) with
          | some (ty, rest') => parseEntries f rest' (ty :: acc)
          | none => .error .malformed) from by simp [parseEntries]]
      rw [parseTypeBody_run t _]
      show parseEntries f ((ts'.flatMap typeTokens) ++ versionTokens v) (t :: acc) = _
      rw [ih f (t :: acc) (by omega) (by simp)]
      simp

theorem length_le_flatMap_typeTokens (ts : List ManifestType) :
    ts.length ≤ (ts.flatMap typeTokens).length := by
  induction ts with
  | nil => simp
  | cons t ts' ih =>
    simp only [List.flatMap_cons, List.length_append, List.length_cons, typeTokens]
    omega

theorem parse_serialize (d : ManifestDocument) (h : wellFormedDoc d = true) :
    parseManifest (serializeManifest d) = .ok d := by
  have hv : d.version ≠ "" := by
    simp only [wellFormedDoc, Bool.and_eq_true, decide_eq_true_eq] at h
    exact h.1
  have hts : d.types ≠ [] := by
    simp only [wellFormedDoc, Bool.and_eq_true, decide_eq_true_eq] at h
    exact h.2.2.1
  have hlex : lexAux (serializeManifest d).toList .ws = docTokens d := by
    rw [show (serializeManifest d).toList = serializeChars d from rfl]
    exact lex_serialize d h
  rw [parseManifest, hlex, docTokens]
  simp only [if_pos rfl]
  rw [parseEntries_run d.types _ [] d.version ?_ hv (fun _ => hts)]
  · simp
  · have h1 := length_le_flatMap_typeTokens d.types
    simp only [List.length_append]
    omega

/-!
## Round-trip lemmas: lexer output invariant and parser well-formedness
-/

theorem okChars_append_one (l : List Char) (c : Char) (hok : okChars l = true)
    (hne : l ≠ []) (hc : c ≠ '<') : okChars (l ++ [c]) = true := by
  cases l with
  | nil => exact absurd rfl hne
  | cons a l' =>
    simp only [okChars, Bool.and_eq_true, decide_eq_true_eq, List.all_eq_true,
      List.cons_append] at hok ⊢
    refine ⟨hok.1, hok.2.1, ?_⟩
    intro x hx
    rcases List.mem_cons.mp hx with rfl | hx2
    · exact hok.2.1
    · rcases List.mem_append.mp hx2 with h3 | h4
      · exact hok.2.2 x (List.mem_cons_of_mem _ h3)
      · rw [List.mem_singleton.mp h4]; exact hc

theorem tagToken_no_text (l : List Char) : (tagToken l).all tokTextOk = true := by
  cases l with
  | nil => rfl
  | cons c rest =>
    simp only [tagToken]
    by_cases h1 : c = '?'
    · simp [h1]
    · by_cases h2 : c = '/'
      · simp [h1, h2, tokTextOk]
      · simp [h1, h2, tokTextOk]

theorem lexAux_textOk (cs : List Char) (st : LexState) (hst : stateOk st) :
    (lexAux cs st).all tokTextOk = true := by
  induction cs generalizing st with
  | nil =>
    cases st with
    | ws => rfl
    | text acc =>
      have hok : okChars acc.reverse = true := hst.2
      simp [lexAux, tokTextOk, hok]
    | tag acc => rfl
  | cons c cs' ih =>
    cases st with
    | ws =>
      by_cases h1 : c = '<'
      · simpa [lexAux, h1] using ih (.tag []) trivial
      · by_cases h2 : c.isWhitespace
        · simpa [lexAux, h1, h2] using ih .ws trivial
        · have hst' : stateOk (.text [c]) := by
            simp [stateOk, okChars, h1, h2]
          simpa [lexAux, h1, h2] using ih (.text [c]) hst'
    | text acc =>
      obtain ⟨hne, hok⟩ := hst
      by_cases h1 : c = '<'
      · have hrec := ih (.tag []) trivial
        simp [lexAux, h1, tokTextOk, hok, hrec]
      · have hst' : stateOk (.text (c :: acc)) := by
          refine ⟨by simp, ?_⟩
          simp only [List.reverse_cons]
          exact okChars_append_one acc.reverse c hok (by simpa using hne) h1
        simpa [lexAux, h1] using ih (.text (c :: acc)) hst'
    | tag acc =>
      by_cases h1 : c = '>'
      · have h2 := ih LexState.ws trivial
        have h3 := tagToken_no_text acc.reverse
        simp [lexAux, h1, List.all_append, h2, h3]
      · simpa [lexAux, h1] using ih (.tag (c :: acc)) trivial

theorem parseMembers_wf (toks : List XmlToken) (acc : List String) :
    ∀ ms rest, parseMembers toks acc = some (ms, rest) →
      toks.all tokTextOk = true →
      acc.all (fun m => okChars m.toList) = true →
      ms.all (fun m => okChars m.toList) = true ∧ rest.all tokTextOk = true := by
  induction toks, acc using parseMembers.induct with
  | case1 acc s rest' ih =>
    intro ms rest h htoks hacc
    rw [parseMembers.eq_def] at h
    simp only [if_pos rfl] at h
    simp only [List.all_cons, Bool.and_eq_true] at htoks
    refine ih ms rest h htoks.2.2.2 ?_
    simp only [List.all_cons, Bool.and_eq_true]
    exact ⟨by simpa [tokTextOk] using htoks.2.1, hacc⟩
  | case2 acc s c rest' hc =>
    intro ms rest h htoks hacc
    rw [parseMembers.eq_def] at h
    simp [hc] at h
  | case3 acc rest' ih =>
    intro ms rest h htoks hacc
    rw [parseMembers.eq_def] at h
    simp only [if_pos rfl] at h
    simp only [List.all_cons, Bool.and_eq_true] at htoks
    refine ih ms rest h htoks.2.2 ?_
    simp only [List.all_cons, Bool.and_eq_true]
    exact ⟨by simp [okChars], hacc⟩
  | case4 acc c rest' hc =>
    intro ms rest h htoks hacc
    rw [parseMembers.eq_def] at h
    simp [hc] at h
  | case5 rest0 acc hf1 hf2 =>
    intro ms rest h htoks hacc
    rw [parseMembers.eq_def] at h
    simp only [if_pos rfl] at h
    cases rest0 with
    | nil => simp at h
    | cons r rs =>
      cases r with
      | elemOpen m2 => simp at h
      | badTok => simp at h
      | elemClose c => exact absurd rfl (hf2 c rs)
      | textTok s =>
        cases rs with
        | nil => simp at h
        | cons r2 rs2 =>
          cases r2 with
          | elemOpen m3 => simp at h
          | badTok => simp at h
          | textTok s2 => simp at h
          | elemClose c => exact absurd rfl (hf1 s c rs2)
  | case6 m rest0 acc hm =>
    intro ms rest h htoks hacc
    rw [parseMembers.eq_def] at h
    simp only [if_neg hm, Option.some.injEq, Prod.mk.injEq] at h
    obtain ⟨h1, h2⟩ := h
    subst h1; subst h2
    exact ⟨by simpa using hacc, htoks⟩
  | case7 toks acc hshape =>
    intro ms rest h htoks hacc
    have hred : parseMembers toks acc = some (acc.reverse, toks) := by
      cases toks with
      | nil => rfl
      | cons t ts =>
        cases t with
        | elemOpen m => exact (hshape m ts rfl).elim
        | elemClose n => rfl
        | textTok s => rfl
        | badTok => rfl
    rw [hred] at h
    simp only [Option.some.injEq, Prod.mk.injEq] at h
    obtain ⟨h1, h2⟩ := h
    subst h1; subst h2
    exact ⟨by simpa using hacc, htoks⟩

theorem parseTypeBody_wf (toks : List XmlToken) (ty : ManifestType) (rest : List XmlToken)
    (h : parseTypeBody toks = some (ty, rest)) (htoks : toks.all tokTextOk = true) :
    entryOk ty = true ∧ rest.all tokTextOk = true := by
  cases hpm : parseMembers toks [] with
  | none => rw [parseTypeBody, hpm] at h; cases h
  | some pr =>
    obtain ⟨ms, rest1⟩ := pr
    simp only [parseTypeBody, hpm] at h
    split at h
    · rename_i n1 s1 c1 c21 r1
      split at h
      · rw [Option.some.injEq, Prod.mk.injEq] at h
        obtain ⟨hty, hrest⟩ := h
        subst hty
        subst hrest
        have hw := parseMembers_wf toks [] ms _ hpm htoks (by simp)
        simp only [List.all_cons, Bool.and_eq_true, tokTextOk] at hw
        refine ⟨?_, hw.2.2.2.2.2⟩
        simp only [entryOk, Bool.and_eq_true, decide_eq_true_eq]
        exact ⟨hw.2.2.1, hw.1⟩
      · cases h
    · rename_i n1 c1 c21 r1
      split at h
      · rw [Option.some.injEq, Prod.mk.injEq] at h
        obtain ⟨hty, hrest⟩ := h
        subst hty
        subst hrest
        have hw := parseMembers_wf toks [] ms _ hpm htoks (by simp)
        simp only [List.all_cons, Bool.and_eq_true, tokTextOk] at hw
        refine ⟨?_, hw.2.2.2.2⟩
        simp only [entryOk, Bool.and_eq_true, decide_eq_true_eq]
        exact ⟨by simp [okChars], hw.1⟩
      · cases h
    · cases h



theorem parseEntries_open (fuel : Nat) (t : String) (rest : List XmlToken)
    (acc : List ManifestType) :
    parseEntries (fuel + 1) (.elemOpen t :: rest) acc =
      (if t = "types" then
        match parseTypeBody rest with
        | some (ty, rest') => parseEntries fuel rest' (ty :: acc)
        | none => .error .malformed
      else if t = "version" then parseVersionTail rest acc
      else .error .malformed) := rfl

theorem parseVersionTail_ok (rest : List XmlToken) (acc : List ManifestType)
    (d : ManifestDocument) (h : parseVersionTail rest acc = .ok d) :
    ∃ v, rest = [.textTok v, .elemClose "version", .elemClose "Package"] ∧
      acc ≠ [] ∧ v ≠ "" ∧ d = ⟨v, acc.reverse⟩ := by
  cases rest with
  | nil => cases h
  | cons a rs =>
    cases a with
    | elemOpen n => cases h
    | elemClose n => cases h
    | badTok => cases h
    | textTok v =>
      cases rs with
      | nil => cases h
      | cons b rs2 =>
        cases b with
        | elemOpen n => cases h
        | textTok s => cases h
        | badTok => cases h
        | elemClose c =>
          cases rs2 with
          | nil => cases h
          | cons e rs3 =>
            cases e with
            | elemOpen n => cases h
            | textTok s => cases h
            | badTok => cases h
            | elemClose c2 =>
              cases rs3 with
              | cons f rs4 => cases h
              | nil =>
                rw [parseVersionTail] at h
                split at h
                · rename_i hcc
                  split at h
                  · cases h
                  · rename_i hacc0
                    split at h
                    · cases h
                    · rename_i hv0
                      rw [Except.ok.injEq] at h
                      exact ⟨v, by rw [hcc.1, hcc.2], hacc0, hv0, h.symm⟩
                · cases h

theorem parseEntries_wf (fuel : Nat) :
    ∀ toks acc d, parseEntries fuel toks acc = .ok d →
      toks.all tokTextOk = true → acc.all entryOk = true →
      d.version ≠ "" ∧ okChars d.version.toList = true ∧ d.types ≠ [] ∧
        d.types.all entryOk = true := by
  induction fuel with
  | zero => intro toks acc d h _ _; cases h
  | succ f ih =>
    intro toks acc d h htoks hacc
    cases toks with
    | nil => cases h
    | cons t0 rest =>
      cases t0 with
      | elemOpen t =>
        rw [parseEntries_open] at h
        by_cases ht : t = "types"
        · subst ht
          simp only [if_pos rfl] at h
          cases hb : parseTypeBody rest with
          | none => rw [hb] at h; cases h
          | some pr =>
            obtain ⟨ty, rest'⟩ := pr
            rw [hb] at h
            simp only [List.all_cons, Bool.and_eq_true] at htoks
            have hwb := parseTypeBody_wf rest ty rest' hb htoks.2
            refine ih rest' (ty :: acc) d h hwb.2 ?_
            simp only [List.all_cons, Bool.and_eq_true]
            exact ⟨hwb.1, hacc⟩
        · by_cases hver : t = "version"
          · subst hver
            rw [if_neg ht, if_pos rfl] at h
            obtain ⟨v, hrest, hacc0, hv0, hd⟩ := parseVersionTail_ok rest acc d h
            subst hd
            subst hrest
            simp only [List.all_cons, Bool.and_eq_true, tokTextOk] at htoks
            refine ⟨hv0, htoks.2.1, ?_, by simpa using hacc⟩
            simpa using hacc0
          · rw [if_neg ht, if_neg hver] at h
            cases h
      | elemClose n => cases h
      | textTok s => cases h
      | badTok => cases h

theorem parse_wellFormed (x : String) (d : ManifestDocument)
    (h : parseManifest x = .ok d) : wellFormedDoc d = true := by
  rw [parseManifest] at h
  have hall : (lexAux x.toList .ws).all tokTextOk = true := lexAux_textOk _ _ trivial
  cases hlex : lexAux x.toList .ws with
  | nil => rw [hlex] at h; cases h
  | cons t0 rest =>
    rw [hlex] at h
    rw [hlex] at hall
    cases t0 with
    | elemOpen p =>
      replace h : (if p = "Package" then parseEntries (rest.length + 1) rest []
          else Except.error ParseError.rootMissing) = Except.ok d := h
      by_cases hp : p = "Package"
      · subst hp
        simp only [if_pos rfl] at h
        simp only [List.all_cons, Bool.and_eq_true] at hall
        have hw := parseEntries_wf (rest.length + 1) rest [] d h hall.2 (by simp)
        simp only [wellFormedDoc, Bool.and_eq_true, decide_eq_true_eq, List.all_eq_true]
        refine ⟨hw.1, hw.2.1, hw.2.2.1, ?_⟩
        intro t htm
        have hx := (List.all_eq_true.mp hw.2.2.2) t htm
        simpa [entryOk, Bool.and_eq_true, decide_eq_true_eq] using hx
      · rw [if_neg hp] at h; cases h
    | elemClose n => cases h
    | textTok s => cases h
    | badTok => cases h

/-!
## Helper lemmas for the filter and summary theorems
-/

theorem limitEntry_name (k : Int) (t : XTypeEntry) : (limitEntry k t).name = t.name := by
  cases htm : t.members with
  | none => simp [limitEntry, htm]
  | some ms =>
    simp only [limitEntry, htm]
    split <;> simp

theorem entryNameIncluded_eq (names : List String) (t : XTypeEntry) :
    entryNameIncluded names t = nameIncludedB names t.name.head? := by
  cases hh : t.name.head? <;> simp [entryNameIncluded, nameIncludedB, hh]

theorem map_headName_filter (ts : List XTypeEntry) (names : List String) :
    ((ts.filter (entryNameIncluded names)).map (fun t => t.name.head?)) =
      (ts.map (fun t => t.name.head?)).filter (nameIncludedB names) := by
  induction ts with
  | nil => rfl
  | cons t ts' ih =>
    by_cases hp : entryNameIncluded names t = true
    · have hp2 : nameIncludedB names t.name.head? = true := by
        rw [← entryNameIncluded_eq]; exact hp
      simp only [List.filter_cons, hp, if_pos rfl, List.map_cons, hp2, if_true, ih]
    · have hp' : entryNameIncluded names t = false := by simpa using hp
      have hp2 : nameIncludedB names t.name.head? = false := by
        rw [← entryNameIncluded_eq]; exact hp'
      simp only [List.filter_cons, hp', List.map_cons, hp2, Bool.false_eq_true,
        if_false, ih]

/-!
## Claim theorems: Manifest Filter Engine and Summarizer
-/

/-- Claim C3: with a positive member limit, every retained entry whose
member count exceeds the limit is truncated to exactly the limit-length
prefix of its original member list, and entries at or under the limit are
unchanged. -/
theorem filterManifest_truncation (px : ParsedXml) (p : XPackage)
    (ts : List XTypeEntry) (names : List String) (maxItemsPerType : Int)
    (hmax : 0 < maxItemsPerType) (h1 : px.Package = some p)
    (h2 : p.types = some ts) :
    ∃ res, filterManifest px names maxItemsPerType = .ok res ∧
      ∀ t ∈ res, ∃ s ∈ ts, t.name = s.name ∧
        (s.members = none → t.members = none) ∧
        ∀ ms, s.members = some ms →
          (((ms.length : Int) > maxItemsPerType →
              t.members = some (ms.take maxItemsPerType.toNat) ∧
              (ms.take maxItemsPerType.toNat).length = maxItemsPerType.toNat) ∧
           ((ms.length : Int) ≤ maxItemsPerType → t.members = some ms)) := by
  refine ⟨filterTypes names maxItemsPerType ts, by simp [filterManifest, h1, h2], ?_⟩
  intro t ht
  simp only [filterTypes, List.mem_map] at ht
  obtain ⟨s, hs, hts⟩ := ht
  refine ⟨s, List.mem_of_mem_filter hs, ?_⟩
  subst hts
  cases hsm : s.members with
  | none => simp [limitEntry_name, limitEntry, hsm]
  | some ms =>
    refine ⟨limitEntry_name _ s, by simp [hsm], ?_⟩
    intro ms' hms'
    obtain rfl : ms = ms' := Option.some_inj.mp hms'
    by_cases hlen : (ms.length : Int) > maxItemsPerType
    · refine ⟨fun _ => ?_, fun hle => absurd hlen (not_lt.mpr hle)⟩
      have hslice : jsSliceTo ms maxItemsPerType = ms.take maxItemsPerType.toNat := by
        simp [jsSliceTo, not_lt.mpr (le_of_lt hmax)]
      constructor
      · simp [limitEntry, hsm, hlen, hslice]
      · have hle2 : maxItemsPerType.toNat ≤ ms.length := by omega
        simp [List.length_take, hle2]
    · refine ⟨fun hgt => absurd hgt hlen, fun _ => ?_⟩
      simp [limitEntry, hsm, hlen]

/-- Claim C4: filtering retains exactly the entries whose (first bound)
name is in the requested list, in original relative order; unmatched
requested names yield no entry and no error, and an empty request yields
an empty result without error. -/
theorem filterManifest_retention (px : ParsedXml) (p : XPackage)
    (ts : List XTypeEntry) (names : List String) (maxItemsPerType : Int)
    (h1 : px.Package = some p) (h2 : p.types = some ts) :
    ∃ res, filterManifest px names maxItemsPerType = .ok res ∧
      res.map (fun t => t.name.head?) =
        (ts.map (fun t => t.name.head?)).filter (nameIncludedB names) ∧
      (∀ t ∈ res, ∃ n, t.name.head? = some n ∧ names.contains n = true) ∧
      (names = [] → res = []) ∧
      (∀ n, n ∈ names → (∀ s ∈ ts, s.name.head? ≠ some n) →
        ∀ t ∈ res, t.name.head? ≠ some n) := by
  refine ⟨filterTypes names maxItemsPerType ts,
    by simp [filterManifest, h1, h2], ?_, ?_, ?_, ?_⟩
  · rw [filterTypes, ← map_headName_filter ts names]
    simp only [List.map_map]
    congr 1
    funext t
    simp [Function.comp, limitEntry_name]
  · intro t ht
    simp only [filterTypes, List.mem_map] at ht
    obtain ⟨s, hs, hts⟩ := ht
    have hincl : entryNameIncluded names s = true := List.of_mem_filter hs
    rw [entryNameIncluded_eq] at hincl
    cases hh : s.name.head? with
    | none => rw [hh] at hincl; cases hincl
    | some n =>
      rw [hh] at hincl
      exact ⟨n, by rw [← hts, limitEntry_name, hh], by simpa [nameIncludedB] using hincl⟩
  · intro hnil
    subst hnil
    have : ∀ s, entryNameIncluded [] s = false := by
      intro s
      rw [entryNameIncluded_eq]
      cases s.name.head? <;> simp [nameIncludedB]
    have hfil : ts.filter (entryNameIncluded []) = [] :=
      List.filter_eq_nil_iff.mpr (fun s _ => by simp [this s])
    simp [filterTypes, hfil]
  · intro n hn habs t ht
    simp only [filterTypes, List.mem_map] at ht
    obtain ⟨s, hs, hts⟩ := ht
    rw [← hts, limitEntry_name]
    exact habs s (List.mem_of_mem_filter hs)

/-- Claim C5 counterexample: filtering the S1 document (five ApexClass
members) with `maxItemsPerType = 0` does not fail — it succeeds and
silently empties the member list (`slice(0, 0)`), contradicting the
claimed InvalidFilterSpec failure. -/
theorem filterManifest_zero_limit_succeeds :
    filterManifest pxS1 ["ApexClass"] 0 = .ok [⟨["ApexClass"], some []⟩] := rfl

/-- Claim C5 (amended): the filter performs no validation of the member
limit; with a non-positive limit it still succeeds, and a zero limit
leaves every retained entry with an absent or empty member list. -/
theorem filterManifest_nonpositive_limit (px : ParsedXml) (p : XPackage)
    (ts : List XTypeEntry) (names : List String) (maxItemsPerType : Int)
    (hmax : maxItemsPerType ≤ 0) (h1 : px.Package = some p)
    (h2 : p.types = some ts) :
    ∃ res, filterManifest px names maxItemsPerType = .ok res ∧
      (maxItemsPerType = 0 → ∀ t ∈ res, t.members = none ∨ t.members = some []) := by
  refine ⟨filterTypes names maxItemsPerType ts, by simp [filterManifest, h1, h2], ?_⟩
  intro h0 t ht
  subst h0
  simp only [filterTypes, List.mem_map] at ht
  obtain ⟨s, hs, hts⟩ := ht
  subst hts
  cases hsm : s.members with
  | none => simp [limitEntry, hsm]
  | some ms =>
    cases ms with
    | nil => simp [limitEntry, hsm]
    | cons a ms' =>
      right
      simp [limitEntry, hsm, jsSliceTo]

theorem filterManifest_nonpositive_limit_witness :
    ∃ res, filterManifest pxS1 ["ApexClass"] 0 = .ok res ∧
      ((0 : Int) = 0 → ∀ t ∈ res, t.members = none ∨ t.members = some []) :=
  filterManifest_nonpositive_limit pxS1 _ _ ["ApexClass"] 0 (by decide) rfl rfl

/-- Claim C6 counterexample: on a two-member entry the summary's
`sampleMembers` equals the entry's complete member list, so the sample is
not "never the full member list regardless of the actual count". -/
theorem getManifestSummary_sample_is_full_list :
    getManifestSummary pxTwoMembers =
      .ok ([⟨some "ApexClass", 2, ["ClsA", "ClsB"]⟩], 2) := rfl

/-- Claim C6 (amended): one summary item per type entry in document order;
`memberCount` is the full member-list length, `sampleMembers` is the
3-element prefix (hence at most 3, and equal to the full list only when
the count is at most 3), and the reported total is the sum of the member
counts. -/
theorem getManifestSummary_spec (px : ParsedXml) (p : XPackage)
    (ts : List XTypeEntry) (h1 : px.Package = some p) (h2 : p.types = some ts) :
    ∃ items total, getManifestSummary px = .ok (items, total) ∧
      items.length = ts.length ∧
      (∀ i (hi : i < items.length) (hi2 : i < ts.length),
        (items.get ⟨i, hi⟩).name = (ts.get ⟨i, hi2⟩).name.head? ∧
        (items.get ⟨i, hi⟩).memberCount = ((ts.get ⟨i, hi2⟩).members.getD []).length ∧
        (items.get ⟨i, hi⟩).sampleMembers = ((ts.get ⟨i, hi2⟩).members.getD []).take 3 ∧
        (items.get ⟨i, hi⟩).sampleMembers.length ≤ 3) ∧
      total = (items.map (fun s => s.memberCount)).sum := by
  refine ⟨ts.map summaryItem,
    (((ts.map summaryItem).map (fun s => s.memberCount)).foldl (· + ·) 0),
    by simp [getManifestSummary, h1, h2], by simp, ?_, ?_⟩
  · intro i hi hi2
    simp only [List.get_eq_getElem, List.getElem_map]
    cases hm : ts[i].members with
    | none => simp [summaryItem, hm]
    | some ms =>
      refine ⟨by simp [summaryItem], by simp [summaryItem, hm],
        by simp [summaryItem, hm], ?_⟩
      simp only [summaryItem, hm]
      simp [List.length_take]
  · rw [List.sum_eq_foldl]

theorem getManifestSummary_spec_witness :
    ∃ items total, getManifestSummary pxFiveTypes = .ok (items, total) ∧
      items.length = 5 :=
  match getManifestSummary_spec pxFiveTypes _ _ rfl rfl with
  | ⟨items, total, hok, hlen, _, _⟩ => ⟨items, total, hok, by rw [hlen]; rfl⟩

/-- Claim C7 counterexample: on a two-entry document where only the first
entry exceeds the limit, the helper reports the single document-level
`modified` flag as true even though the second entry was not truncated —
there is no per-entry truncation flag. -/
theorem filterLargeManifest_flag_is_global :
    filterLargeManifest pxTwoTypes 3 =
      some ⟨[⟨["ApexClass"], some ["A", "B", "C"]⟩,
             ⟨["CustomObject"], some ["X"]⟩], true⟩ := rfl

/-- Claim C7 (amended): auto-limit mode truncates every entry of the
document (no name filter) to the limit-length prefix and reports one
document-level `modified` flag, true exactly when some entry exceeded the
limit; scenario S1 holds. -/
theorem filterLargeManifest_spec (px : ParsedXml) (p : XPackage)
    (ts : List XTypeEntry) (maxItemsPerType : Int) (hmax : 0 < maxItemsPerType)
    (h1 : px.Package = some p) (h2 : p.types = some ts) :
    ∃ r, filterLargeManifest px maxItemsPerType = some r ∧
      r.types.length = ts.length ∧
      (∀ i (hi : i < r.types.length) (hi2 : i < ts.length),
        (r.types.get ⟨i, hi⟩).name = (ts.get ⟨i, hi2⟩).name ∧
        ∀ ms, (ts.get ⟨i, hi2⟩).members = some ms →
          (r.types.get ⟨i, hi⟩).members =
            some (if (ms.length : Int) > maxItemsPerType
                  then ms.take maxItemsPerType.toNat else ms)) ∧
      (r.modified = true ↔
        ∃ t ∈ ts, ∃ ms, t.members = some ms ∧ (ms.length : Int) > maxItemsPerType) ∧
      filterLargeManifest pxS1 3 =
        some ⟨[⟨["ApexClass"], some ["A", "B", "C"]⟩], true⟩ := by
  refine ⟨⟨ts.map (limitEntry maxItemsPerType),
      ts.any fun t =>
        match t.members with
        | some ms => (ms.length : Int) > maxItemsPerType
        | none => false⟩,
    by simp [filterLargeManifest, h1, h2], by simp, ?_, ?_, rfl⟩
  · intro i hi hi2
    simp only [List.get_eq_getElem, List.getElem_map]
    refine ⟨limitEntry_name _ _, ?_⟩
    intro ms hms
    by_cases hlen : (ms.length : Int) > maxItemsPerType
    · have hslice : jsSliceTo ms maxItemsPerType = ms.take maxItemsPerType.toNat := by
        simp [jsSliceTo, not_lt.mpr (le_of_lt hmax)]
      simp [limitEntry, hms, hlen, hslice]
    · simp [limitEntry, hms, hlen]
  · rw [List.any_eq_true]
    constructor
    · rintro ⟨t, ht, hpred⟩
      cases hm : t.members with
      | none => rw [hm] at hpred; simp at hpred
      | some ms =>
        rw [hm] at hpred
        exact ⟨t, ht, ms, hm, by simpa using hpred⟩
    · rintro ⟨t, ht, ms, hms, hlen⟩
      exact ⟨t, ht, by simp [hms, hlen]⟩

theorem filterLargeManifest_spec_witness :
    ∃ r, filterLargeManifest pxS1 3 = some r ∧ r.types.length = 1 :=
  match filterLargeManifest_spec pxS1 _ _ 3 (by decide) rfl rfl with
  | ⟨r, hok, hlen, _, _, _⟩ => ⟨r, hok, by rw [hlen]; rfl⟩

theorem filterManifest_truncation_witness :
    ∃ res, filterManifest pxS1 ["ApexClass"] 3 = .ok res :=
  match filterManifest_truncation pxS1 _ _ ["ApexClass"] 3 (by decide) rfl rfl with
  | ⟨res, hok, _⟩ => ⟨res, hok⟩

theorem filterManifest_retention_witness :
    ∃ res, filterManifest pxFiveTypes [] 500 = .ok res ∧ res = [] :=
  match filterManifest_retention pxFiveTypes _ _ [] 500 rfl rfl with
  | ⟨res, hok, _, _, hnil, _⟩ => ⟨res, hok, hnil rfl⟩

/-- Claim C8: when the xml2js binding has no `Package` root or no `types`
collection, both the summary and the filter abort with the
"Invalid package.xml format" error and produce no partial result; at the
text level, the modelled parser rejects a document missing the type
collection with `typesMissing` and a foreign root with `rootMissing`. -/
theorem manifest_invalid_structure_aborts (px : ParsedXml)
    (h : px.Package = none ∨ ∃ p, px.Package = some p ∧ p.types = none) :
    getManifestSummary px = .error "Invalid package.xml format" ∧
    (∀ names maxItemsPerType, filterManifest px names maxItemsPerType =
      .error "Invalid package.xml format") ∧
    parseManifest noTypesXml = .error .typesMissing ∧
    parseManifest badRootXml = .error .rootMissing := by
  refine ⟨?_, ?_, by decide, by decide⟩
  · rcases h with h | ⟨p, hp, ht⟩
    · simp [getManifestSummary, h]
    · simp [getManifestSummary, hp, ht]
  · intro names maxItemsPerType
    rcases h with h | ⟨p, hp, ht⟩
    · simp [filterManifest, h]
    · simp [filterManifest, hp, ht]

theorem manifest_invalid_structure_aborts_witness :
    getManifestSummary ⟨none⟩ = .error "Invalid package.xml format" ∧
    filterManifest ⟨some ⟨none, some ["59.0"]⟩⟩ ["ApexClass"] 500 =
      .error "Invalid package.xml format" :=
  ⟨(manifest_invalid_structure_aborts ⟨none⟩ (Or.inl rfl)).1,
   (manifest_invalid_structure_aborts ⟨some ⟨none, some ["59.0"]⟩⟩
      (Or.inr ⟨_, rfl, rfl⟩)).2.1 ["ApexClass"] 500⟩

/-- Claim C9: round-trip laws of the spec-modelled parser/serializer.
Serializing any well-formed in-memory document and parsing it back yields
the same document (types, members, order, version); and any text the
parser accepts is semantically equivalent to its reserialization, in that
both parse to the same document (no type or member is lost). -/
theorem manifest_roundtrip :
    (∀ d, wellFormedDoc d = true → parseManifest (serializeManifest d) = .ok d) ∧
    (∀ x d, parseManifest x = .ok d → parseManifest (serializeManifest d) = .ok d) :=
  ⟨fun d h => parse_serialize d h,
   fun x d h => parse_serialize d (parse_wellFormed x d h)⟩

theorem manifest_roundtrip_witness :
    wellFormedDoc docW = true ∧
    parseManifest (serializeManifest docW) = .ok docW :=
  ⟨by decide, manifest_roundtrip.1 docW (by decide)⟩

/-!
## Claim theorems: Command Execution Adapter
-/

/-- Claim C1: on a successful exit, a non-empty error channel with empty
standard output yields a Failure; otherwise structured parsing of standard
output happens last, yielding the parsed payload on success and the
trimmed-text wrapper on parse failure, so non-empty plain-text output is
never a Failure; in particular stdout "Done." with zero exit yields
Success({message: "Done."}). -/
theorem executeSfCommand_success_path (r : ExecResult) (h : r.error = none) :
    (r.stderr ≠ "" ∧ r.stdout = "" → ∃ m, executeSfCommand r = .Failure m) ∧
    (¬(r.stderr ≠ "" ∧ r.stdout = "") →
      executeSfCommand r =
        match jsonParse r.stdout with
        | some v => .Success v
        | none => .Success (.obj [("message", .str (jsTrim r.stdout))])) ∧
    (r.stdout ≠ "" → ∃ p, executeSfCommand r = .Success p) ∧
    executeSfCommand ⟨none, "Done.", ""⟩ =
      .Success (.obj [("message", .str "Done.")]) := by
  refine ⟨?_, ?_, ?_, rfl⟩
  · intro hc
    cases htry : tryStderrMessage r.stderr with
    | some m => exact ⟨m, by simp [executeSfCommand, h, hc, htry]⟩
    | none => exact ⟨r.stderr, by simp [executeSfCommand, h, hc, htry]⟩
  · intro hc
    simp [executeSfCommand, h, hc]
  · intro hout
    have hc : ¬(r.stderr ≠ "" ∧ r.stdout = "") := fun hx => hout hx.2
    cases hp : jsonParse r.stdout with
    | some v => exact ⟨v, by simp [executeSfCommand, h, hc, hp]⟩
    | none =>
      exact ⟨.obj [("message", .str (jsTrim r.stdout))],
        by simp [executeSfCommand, h, hc, hp]⟩

theorem executeSfCommand_success_path_witness :
    executeSfCommand ⟨none, "Done.", ""⟩ =
      .Success (.obj [("message", .str "Done.")]) := by
  have hx := (executeSfCommand_success_path ⟨none, "Done.", ""⟩ rfl).2.1 (by simp)
  exact hx.trans (by rfl)

/-- Claim C2 counterexample: a launch/exit error whose error channel does
not parse as JSON is rejected with the error object itself (node's
"Command failed" message), not the raw error-channel text. -/
theorem executeSfCommand_rejects_error_object :
    executeSfCommand ⟨some "Command failed: sf org list", "", "permission denied"⟩ =
      .Failure "Command failed: sf org list" ∧
    executeSfCommand ⟨some "Command failed: sf org list", "", "permission denied"⟩ ≠
      .Failure "permission denied" :=
  ⟨rfl, fun hEq => by
    have h2 : CommandOutcome.Failure "Command failed: sf org list" =
        CommandOutcome.Failure "permission denied" :=
      Eq.trans (Eq.symm (show executeSfCommand
        ⟨some "Command failed: sf org list", "", "permission denied"⟩ =
          .Failure "Command failed: sf org list" from rfl)) hEq
    simp at h2⟩

/-- Claim C2 (amended): on non-zero exit or launch error the adapter first
tries to parse the error channel as a structured error document; a truthy
string message yields Failure(message) (so S4 gives
Failure("INVALID_SESSION_ID")), while a non-parsing error channel yields
Failure carrying the launch/exit error's own message, not the raw
error-channel text. -/
theorem executeSfCommand_error_path (r : ExecResult) (errMsg : String)
    (h : r.error = some errMsg) :
    (∀ fields m, jsonParse r.stderr = some (.obj fields) →
      jsGetField fields "message" = some (.str m) → m ≠ "" →
      executeSfCommand r = .Failure m) ∧
    (jsonParse r.stderr = none → executeSfCommand r = .Failure errMsg) := by
  constructor
  · intro fields m hp hf hm
    simp [executeSfCommand, h, tryStderrMessage, hp, hf, jsTruthy, jsString, hm]
  · intro hp
    simp [executeSfCommand, h, tryStderrMessage, hp]

theorem executeSfCommand_error_path_witness :
    executeSfCommand ⟨some "exit 1", "", s4stderrText⟩ =
      .Failure "INVALID_SESSION_ID" :=
  (executeSfCommand_error_path ⟨some "exit 1", "", s4stderrText⟩ "exit 1" rfl).1
    [("message", .str "INVALID_SESSION_ID")] "INVALID_SESSION_ID"
    (by rfl) (by rfl) (by decide)

/-- Claim C10: a successful exit with empty standard output and empty
error channel resolves with Success({message: ""}): the
stderr-without-stdout branch is skipped and the unparseable empty stdout
falls through to the trimmed-text wrapper, so empty output never produces
a Failure. -/
theorem executeSfCommand_empty_output :
    (∀ r : ExecResult, r.error = none → r.stderr = "" →
      ∃ p, executeSfCommand r = .Success p) ∧
    executeSfCommand ⟨none, "", ""⟩ = .Success (.obj [("message", .str "")]) := by
  refine ⟨?_, rfl⟩
  intro r h hs
  have hc : ¬(r.stderr ≠ "" ∧ r.stdout = "") := fun hx => hx.1 hs
  cases hp : jsonParse r.stdout with
  | some v => exact ⟨v, by simp [executeSfCommand, h, hc, hp]⟩
  | none =>
    exact ⟨.obj [("message", .str (jsTrim r.stdout))],
      by simp [executeSfCommand, h, hc, hp]⟩

theorem executeSfCommand_empty_output_witness :
    ∃ p, executeSfCommand ⟨none, "", ""⟩ = .Success p :=
  executeSfCommand_empty_output.1 ⟨none, "", ""⟩ rfl rfl
